import Mathlib

/-!
Shallow embedding of `scripts/fetch_android_codex_deps.py` (repository
un4gt/codexm).  Python strings are modelled as Lean `String`s, with the
handful of `str` operations the script uses re-implemented over the
underlying character list (`String.data`) so that every definition is
executable and kernel-reducible.  Tar members are modelled as plain
records carrying the fields the script inspects (name, size, regular-file
flag, content bytes); fallible operations return `Except FetchError`.
-/

namespace Codexm

/-- Model of the character class stripped by Python `str.strip()`
(ASCII whitespace; the Unicode space classes never occur in digests). -/
def pyIsSpace (c : Char) : Bool :=
  c = ' ' || c = '\t' || c = '\n' || c = '\r' || c = '\x0b' || c = '\x0c'

/-- Model of Python `str.strip()`: drop leading and trailing whitespace. -/
def pyStrip (s : String) : String :=
  ⟨((s.data.dropWhile pyIsSpace).reverse.dropWhile pyIsSpace).reverse⟩

/-- Model of Python `str.startswith(pre)`. -/
def pyStartsWith (pre s : String) : Bool :=
  pre.data.isPrefixOf s.data

/-- Model of Python `str.endswith(suf)`. -/
def pyEndsWith (suf s : String) : Bool :=
  suf.data.isSuffixOf s.data

/-- Model of Python `str.lower()` (ASCII case folding suffices here:
the strings compared are hexadecimal digests). -/
def pyLower (s : String) : String :=
  ⟨s.data.map Char.toLower⟩

/-- Model of `s.split(':', 1)[1]`: everything after the first colon.
In the script this is only reached under a `startswith('sha256:')` guard,
so a colon is always present; with no colon we return `""` (the Python
expression would raise, but that point is unreachable). -/
def afterFirstColon (s : String) : String :=
  ⟨(s.data.dropWhile (fun c => c ≠ ':')).drop 1⟩

/-- Embedding of `_parse_sha256_digest` (script lines 68-74):

    if not digest: return None
    digest = digest.strip()
    if digest.startswith('sha256:'):
      return digest.split(':', 1)[1].strip() or None
    return None
-/
def parseSha256Digest : Option String → Option String
  | none => none
  | some digest =>
    if digest.data = [] then none
    else if pyStartsWith "sha256:" (pyStrip digest) = true then
      if (pyStrip (afterFirstColon (pyStrip digest))).data = [] then none
      else some (pyStrip (afterFirstColon (pyStrip digest)))
    else none

/-- One character-list component splitter (used to model
`pathlib.Path(name).name`): split `l` at every occurrence of `sep`. -/
def splitChar (sep : Char) : List Char → List (List Char)
  | [] => [[]]
  | x :: xs =>
    if x = sep then [] :: splitChar sep xs
    else
      match splitChar sep xs with
      | [] => [[x]]
      | h :: t => (x :: h) :: t

/-- Model of `pathlib.Path(name).name`: the last path component.
`PurePosixPath` drops empty components and bare `.` components, so the
basename is the last remaining component (or `""` when none remains). -/
def pyBasename (s : String) : String :=
  ⟨((splitChar '/' s.data).filter
      (fun comp => !comp.isEmpty && !(comp = ['.'] : Bool))).getLastD []⟩

/-- Model of `tarfile.TarInfo` restricted to the fields the script
inspects: the member's internal name, its header size, whether it is a
regular file (`isfile()`), and its content bytes (only the first four are
ever read, via `extractfile(m).read(4)`; `tarfile` always returns a
stream for a regular-file member, so the script's defensive
`if not fileobj` branches are unreachable and are not modelled). -/
structure TarInfo where
  name : String
  size : Nat
  isFile : Bool
  data : List Nat
deriving Repr, DecidableEq

/-- The ELF magic bytes `0x7F 'E' 'L' 'F'`. -/
def elfMagic : List Nat := [0x7f, 0x45, 0x4c, 0x46]

/-- Embedding of `_is_elf_header`: `b.startswith(b'\x7fELF')`. -/
def isElfHeader (b : List Nat) : Bool :=
  elfMagic.isPrefixOf b

/-- Embedding of `_tar_members`: keep only regular-file members. -/
def tarMembers (ms : List TarInfo) : List TarInfo :=
  ms.filter (·.isFile)

/-- The dual-binary minimum-size threshold: `10 * 1024 * 1024`. -/
def minSizeCodex : Nat := 10 * 1024 * 1024

/-- The candidate filter of `_extract_codex_termux_binaries` (lines
172-180): regular-file members of size at least `min_size` whose first
four content bytes are the ELF magic. -/
def elfCandidates (ms : List TarInfo) : List TarInfo :=
  (tarMembers ms).filter
    (fun m => decide (minSizeCodex ≤ m.size) && isElfHeader (m.data.take 4))

/-- Model of Python `max(l, key=lambda m: m.size)` as used on member
lists: `none` on an empty list, otherwise the first element of maximal
size (Python's `max` keeps the earlier element on ties). -/
def maxBySize : List TarInfo → Option TarInfo
  | [] => none
  | x :: xs => some (xs.foldl (fun best m => if best.size < m.size then m else best) x)

/-- Embedding of the inner `find_by_basename` closure (lines 185-187):
the largest candidate whose basename is in `basenames`, or `none`. -/
def findByBasename (elf : List TarInfo) (basenames : List String) : Option TarInfo :=
  maxBySize (elf.filter (fun m => basenames.contains (pyBasename m.name)))

/-- The primary-name set `{'codex'}`. -/
def primaryNames : List String := ["codex"]

/-- The secondary-name set `{'codex-exec', 'codex_exec'}`. -/
def secondaryNames : List String := ["codex-exec", "codex_exec"]

/-- Primary selection (lines 189, 192-193): the largest member named
`codex`, else the largest candidate overall; `none` only on an empty
candidate list (in the script that case was already rejected). -/
def primarySelect (elf : List TarInfo) : Option TarInfo :=
  match findByBasename elf primaryNames with
  | some c => some c
  | none => maxBySize elf

/-- Stable descending insertion by size: a member is placed before the
first strictly smaller one, so equal sizes keep their original order.
This models Python's stable `sorted(elf_members, key=size, reverse=True)`. -/
def insertBySizeDesc (m : TarInfo) : List TarInfo → List TarInfo
  | [] => [m]
  | x :: xs => if x.size ≤ m.size then m :: x :: xs else x :: insertBySizeDesc m xs

/-- Model of `sorted(elf_members, key=lambda m: m.size, reverse=True)`. -/
def sortBySizeDesc : List TarInfo → List TarInfo
  | [] => []
  | x :: xs => insertBySizeDesc x (sortBySizeDesc xs)

/-- Secondary selection (lines 190, 195-198): the largest member whose
basename is `codex-exec`/`codex_exec`; otherwise the first member of the
size-descending order whose internal name differs from the primary's. -/
def secondarySelect (elf : List TarInfo) (primary : TarInfo) : Option TarInfo :=
  match findByBasename elf secondaryNames with
  | some e => some e
  | none => (sortBySizeDesc elf).find? (fun m => m.name ≠ primary.name)

/-- The typed failures of the script (each `raise RuntimeError(...)` site,
named as in the specification's error taxonomy). -/
inductive FetchError where
  | noExecutableFound
  | ambiguousArchive
  | integrityError (got expected : String)
  | assetNotFound (available : List String)
deriving Repr, DecidableEq

/-- Embedding of `_extract_codex_termux_binaries` (lines 167-204) up to
the final writes: which two members get extracted, or which error is
raised.  `primarySelect` returns `none` exactly when the candidate list
is empty, which is the script's `if not elf_members` check (line 182). -/
def extractCodexTermuxSelect (ms : List TarInfo) : Except FetchError (TarInfo × TarInfo) :=
  match primarySelect (elfCandidates ms) with
  | none => .error .noExecutableFound
  | some codexMember =>
    match secondarySelect (elfCandidates ms) codexMember with
    | none => .error .ambiguousArchive
    | some execMember =>
      if execMember.name = codexMember.name then .error .ambiguousArchive
      else .ok (codexMember, execMember)

/-- The members `_extract_codex_termux_binaries` writes to the
destination directory (lines 203-204): both selections on success,
nothing when any error is raised. -/
def extractedMembers (ms : List TarInfo) : List TarInfo :=
  match extractCodexTermuxSelect ms with
  | .ok (c, e) => [c, e]
  | .error _ => []

/-- The member filter of `_extract_ripgrep_rg` (lines 210-218): basename
`rg`, size strictly above `100_000`, ELF magic in the first four bytes. -/
def rgCond (m : TarInfo) : Bool :=
  decide (pyBasename m.name = "rg") && decide (100000 < m.size)
    && isElfHeader (m.data.take 4)

/-- Embedding of `_extract_ripgrep_rg` (lines 207-223): the first
regular-file member passing `rgCond`, else `NoExecutableFound`. -/
def extractRipgrepRg (ms : List TarInfo) : Except FetchError TarInfo :=
  match (tarMembers ms).find? rgCond with
  | some m => .ok m
  | none => .error .noExecutableFound

/-- Embedding of the `ReleaseAsset` dataclass (lines 34-38). -/
structure ReleaseAsset where
  name : String
  url : String
  sha256 : Option String
deriving Repr, DecidableEq

/-- One release asset as returned by the GitHub API: the fields the
script reads (`name`, `browser_download_url`, `digest`). -/
structure ApiAsset where
  name : String
  url : String
  digest : Option String
deriving Repr, DecidableEq

/-- One release as returned by the GitHub API: the fields the script
reads (`tag_name`, `draft`, `prerelease`, `assets`). -/
structure ApiRelease where
  tagName : String
  draft : Bool
  prerelease : Bool
  assets : List ApiAsset
deriving Repr, DecidableEq

/-- The `.tgz` filter of the main loop (lines 305, 318):
`[a for a in assets if str(a.get('name') or '').endswith('.tgz')]`. -/
def tgzOf (assets : List ApiAsset) : List ApiAsset :=
  assets.filter (fun a => pyEndsWith ".tgz" a.name)

/-- Embedding of the codex-termux asset resolution of `main` (lines
303-338): take the `.tgz` assets of the requested release; when the
requested tag is `latest` and there are none, walk the recent-releases
list, skip drafts and prereleases, and adopt the first release with a
`.tgz` asset; fail reporting the asset names seen when none is found;
otherwise pick the first `.tgz` asset (`tgz_assets[0]`). -/
def resolveTgzAsset (tag : String) (rel : ApiRelease) (rels : List ApiRelease) :
    Except FetchError ReleaseAsset :=
  let assets := rel.assets
  let tgz := tgzOf assets
  let found :=
    if tgz.isEmpty && tag = "latest" then
      match rels.find? (fun r => !r.draft && !r.prerelease && !(tgzOf r.assets).isEmpty) with
      | some r => (r.assets, tgzOf r.assets)
      | none => (assets, tgz)
    else (assets, tgz)
  match found.2 with
  | [] => .error (.assetNotFound (found.1.map (·.name)))
  | a :: _ =>
    .ok { name := a.name, url := a.url, sha256 := parseSha256Digest a.digest }

/-- Embedding of the verify-then-extract step of `main` (lines 344-348):
the downloaded archive's computed digest is checked against the asset's
expected digest — `if codex_asset.sha256 and got_sha.lower() !=
codex_asset.sha256.lower(): raise` — and only then is dual-binary
extraction run.  The Python truthiness test is modelled faithfully: an
empty expected digest (which `_parse_sha256_digest` never produces)
would skip the comparison. -/
def verifyAndExtractCodex (expected : Option String) (gotSha : String)
    (archive : List TarInfo) : Except FetchError (TarInfo × TarInfo) :=
  match expected with
  | some e =>
    if e.data ≠ [] ∧ pyLower gotSha ≠ pyLower e then
      .error (.integrityError gotSha e)
    else extractCodexTermuxSelect archive
  | none => extractCodexTermuxSelect archive

/-- The codex-termux download pass with the expected digest taken from
the raw API digest string exactly as `main` builds it (line 337:
`sha256=_parse_sha256_digest(a.get('digest'))`). -/
def codexDownloadPass (rawDigest : Option String) (gotSha : String)
    (archive : List TarInfo) : Except FetchError (TarInfo × TarInfo) :=
  verifyAndExtractCodex (parseSha256Digest rawDigest) gotSha archive

/-- `m` is the first size-maximal element of `l`: every element before it
is strictly smaller and no element anywhere is larger.  This is how
Python's `max(l, key=size)` breaks ties (encounter order). -/
def FirstMaxBySize (l : List TarInfo) (m : TarInfo) : Prop :=
  ∃ l1 l2, l = l1 ++ m :: l2 ∧ (∀ x ∈ l1, x.size < m.size) ∧ ∀ x ∈ l, x.size ≤ m.size

/-- The basename-in-secondary-set test used by `find_by_basename`. -/
def secNamed (m : TarInfo) : Bool :=
  secondaryNames.contains (pyBasename m.name)

/-- The basename-in-primary-set test used by `find_by_basename`. -/
def primNamed (m : TarInfo) : Bool :=
  primaryNames.contains (pyBasename m.name)

/-- Claim C1 as the specification states it: the secondary executable is
chosen among the remaining candidates *excluding the chosen primary* — a
secondary-named remaining candidate of maximal size if one exists,
otherwise the first size-maximal remaining candidate. -/
def ClaimC1Statement : Prop :=
  ∀ ms p, primarySelect (elfCandidates ms) = some p →
    (((elfCandidates ms).erase p).filter secNamed ≠ [] →
      ∃ s, secondarySelect (elfCandidates ms) p = some s ∧
        s ∈ ((elfCandidates ms).erase p).filter secNamed ∧
        ∀ x ∈ ((elfCandidates ms).erase p).filter secNamed, x.size ≤ s.size)
    ∧ (((elfCandidates ms).erase p).filter secNamed = [] →
      ∀ s, FirstMaxBySize ((elfCandidates ms).erase p) s →
        secondarySelect (elfCandidates ms) p = some s)

/-- Claim C3 as the specification states it: the dual-binary extraction
raises the ambiguity error exactly when fewer than two qualifying
executables exist or when primary and secondary resolve to the same
member, and on success the two members are never the same. -/
def ClaimC3Statement : Prop :=
  ∀ ms,
    (extractCodexTermuxSelect ms = .error .ambiguousArchive ↔
      (elfCandidates ms ≠ [] ∧
        ((elfCandidates ms).length < 2 ∨
          ∃ p, primarySelect (elfCandidates ms) = some p ∧
            secondarySelect (elfCandidates ms) p = some p)))
    ∧ ∀ c e, extractCodexTermuxSelect ms = .ok (c, e) → c ≠ e

/-- Claim C8 as the specification states it: a digest string beginning
with `sha256:` yields the portion after the prefix unchanged; any other
prefix, the empty string, and absence all yield absence. -/
def ClaimC8Statement : Prop :=
  (∀ s : String, pyStartsWith "sha256:" s = true →
    parseSha256Digest (some s) = some ⟨s.data.drop 7⟩)
  ∧ (∀ s : String, pyStartsWith "sha256:" s = false →
    parseSha256Digest (some s) = none)
  ∧ parseSha256Digest none = none

/-- A qualifying member whose basename is in the secondary-name set and
which is the largest member of its archive. -/
def wSecBig : TarInfo :=
  { name := "pkg/codex-exec", size := 31457280, isFile := true, data := elfMagic }

/-- A qualifying member with an unrelated basename. -/
def wOther : TarInfo :=
  { name := "pkg/other", size := 20971520, isFile := true, data := elfMagic }

/-- Two distinct qualifying members sharing one internal name. -/
def wApp1 : TarInfo :=
  { name := "app", size := 31457280, isFile := true, data := elfMagic }

/-- Second qualifying member with the same internal name as `wApp1`. -/
def wApp2 : TarInfo :=
  { name := "app", size := 20971520, isFile := true, data := elfMagic }

/-- A qualifying member named `codex`. -/
def wCodex : TarInfo :=
  { name := "bin/codex", size := 15728640, isFile := true, data := elfMagic }

/-- A qualifying member named `codex-exec`. -/
def wExec : TarInfo :=
  { name := "bin/codex-exec", size := 12582912, isFile := true, data := elfMagic }

/-- A small text member that passes no filter. -/
def wText : TarInfo :=
  { name := "README", size := 2048, isFile := true, data := [65, 66] }

/-! ### General lemmas about the selection primitives -/

theorem foldlMax_firstMax (xs : List TarInfo) : ∀ x : TarInfo,
    FirstMaxBySize (x :: xs)
      (xs.foldl (fun best m => if best.size < m.size then m else best) x) := by
  induction xs with
  | nil =>
    intro x
    exact ⟨[], [], rfl, by simp, by simp⟩
  | cons y ys ih =>
    intro x
    simp only [List.foldl_cons]
    by_cases h : x.size < y.size
    · simp only [if_pos h]
      obtain ⟨l1, l2, heq, hlt, hle⟩ := ih y
      have hym : y.size ≤
          (ys.foldl (fun best m => if best.size < m.size then m else best) y).size :=
        hle y (List.mem_cons_self y ys)
      refine ⟨x :: l1, l2, ?_, ?_, ?_⟩
      · rw [List.cons_append, ← heq]
      · intro z hz
        rcases List.mem_cons.mp hz with hz | hz
        · exact hz ▸ lt_of_lt_of_le h hym
        · exact hlt z hz
      · intro z hz
        rcases List.mem_cons.mp hz with hz | hz
        · exact hz ▸ le_of_lt (lt_of_lt_of_le h hym)
        · exact hle z hz
    · simp only [if_neg h]
      obtain ⟨l1, l2, heq, hlt, hle⟩ := ih x
      have hyx : y.size ≤ x.size := le_of_not_lt h
      have hxm : x.size ≤
          (ys.foldl (fun best m => if best.size < m.size then m else best) x).size :=
        hle x (List.mem_cons_self x ys)
      cases l1 with
      | nil =>
        simp only [List.nil_append] at heq
        have hx : x = ys.foldl (fun best m => if best.size < m.size then m else best) x :=
          ((List.cons.injEq _ _ _ _).mp heq).1
        refine ⟨[], y :: ys, ?_, by simp, ?_⟩
        · rw [List.nil_append, ← hx]
        · intro z hz
          rcases List.mem_cons.mp hz with hz | hz
          · subst hz; exact hxm
          · rcases List.mem_cons.mp hz with hz | hz
            · subst hz; exact le_trans hyx hxm
            · exact hle z (List.mem_cons_of_mem x hz)
      | cons a l1t =>
        have hax : x = a := ((List.cons.injEq _ _ _ _).mp heq).1
        have hys : ys = l1t ++
            ys.foldl (fun best m => if best.size < m.size then m else best) x :: l2 :=
          ((List.cons.injEq _ _ _ _).mp heq).2
        have hxlt : x.size <
            (ys.foldl (fun best m => if best.size < m.size then m else best) x).size := by
          have h0 := hlt a (List.mem_cons_self a l1t)
          rw [← hax] at h0
          exact h0
        refine ⟨x :: y :: l1t, l2, ?_, ?_, ?_⟩
        · rw [List.cons_append, List.cons_append, ← hys]
        · intro z hz
          rcases List.mem_cons.mp hz with hz | hz
          · subst hz; exact hxlt
          · rcases List.mem_cons.mp hz with hz | hz
            · subst hz; exact lt_of_le_of_lt hyx hxlt
            · exact hlt z (List.mem_cons_of_mem a hz)
        · intro z hz
          rcases List.mem_cons.mp hz with hz | hz
          · subst hz; exact le_of_lt hxlt
          · rcases List.mem_cons.mp hz with hz | hz
            · subst hz; exact le_trans hyx (le_of_lt hxlt)
            · exact hle z (List.mem_cons_of_mem x hz)

theorem maxBySize_eq_none_iff (l : List TarInfo) : maxBySize l = none ↔ l = [] := by
  cases l <;> simp [maxBySize]

theorem maxBySize_firstMax {l : List TarInfo} {m : TarInfo}
    (h : maxBySize l = some m) : FirstMaxBySize l m := by
  cases l with
  | nil => exact absurd h (by simp [maxBySize])
  | cons x xs =>
    have hm : m = xs.foldl (fun best m => if best.size < m.size then m else best) x := by
      simpa [maxBySize] using h.symm
    exact hm ▸ foldlMax_firstMax xs x

theorem firstMax_mem {l : List TarInfo} {m : TarInfo}
    (h : FirstMaxBySize l m) : m ∈ l := by
  obtain ⟨l1, l2, heq, -, -⟩ := h
  exact heq ▸ List.mem_append_right _ (by simp)

theorem maxBySize_mem {l : List TarInfo} {m : TarInfo}
    (h : maxBySize l = some m) : m ∈ l :=
  firstMax_mem (maxBySize_firstMax h)

theorem maxBySize_le {l : List TarInfo} {m : TarInfo}
    (h : maxBySize l = some m) : ∀ x ∈ l, x.size ≤ m.size := by
  obtain ⟨l1, l2, heq, -, hle⟩ := maxBySize_firstMax h
  exact hle

theorem insertBySizeDesc_perm (m : TarInfo) (l : List TarInfo) :
    (insertBySizeDesc m l).Perm (m :: l) := by
  induction l with
  | nil => exact List.Perm.refl _
  | cons x xs ih =>
    by_cases h : x.size ≤ m.size
    · simp only [insertBySizeDesc, if_pos h]
      exact List.Perm.refl _
    · simp only [insertBySizeDesc, if_neg h]
      exact (ih.cons x).trans (List.Perm.swap m x xs)

theorem sortBySizeDesc_perm (l : List TarInfo) : (sortBySizeDesc l).Perm l := by
  induction l with
  | nil => exact List.Perm.refl _
  | cons x xs ih =>
    exact (insertBySizeDesc_perm x (sortBySizeDesc xs)).trans (ih.cons x)

theorem mem_sortBySizeDesc {a : TarInfo} {l : List TarInfo} :
    a ∈ sortBySizeDesc l ↔ a ∈ l :=
  (sortBySizeDesc_perm l).mem_iff

theorem insertBySizeDesc_sorted {m : TarInfo} {l : List TarInfo}
    (h : l.Pairwise (fun a b => b.size ≤ a.size)) :
    (insertBySizeDesc m l).Pairwise (fun a b => b.size ≤ a.size) := by
  induction l with
  | nil => simp [insertBySizeDesc]
  | cons x xs ih =>
    obtain ⟨hx, hxs⟩ := List.pairwise_cons.mp h
    by_cases hc : x.size ≤ m.size
    · simp only [insertBySizeDesc, if_pos hc]
      refine List.pairwise_cons.mpr ⟨?_, h⟩
      intro b hb
      rcases List.mem_cons.mp hb with hb | hb
      · exact hb ▸ hc
      · exact le_trans (hx b hb) hc
    · simp only [insertBySizeDesc, if_neg hc]
      refine List.pairwise_cons.mpr ⟨?_, ih hxs⟩
      intro b hb
      have hb2 : b ∈ m :: xs := (insertBySizeDesc_perm m xs).mem_iff.mp hb
      rcases List.mem_cons.mp hb2 with hb2 | hb2
      · exact hb2 ▸ le_of_lt (lt_of_not_le hc)
      · exact hx b hb2

theorem sortBySizeDesc_sorted (l : List TarInfo) :
    (sortBySizeDesc l).Pairwise (fun a b => b.size ≤ a.size) := by
  induction l with
  | nil => simp [sortBySizeDesc]
  | cons x xs ih => exact insertBySizeDesc_sorted ih

theorem filter_ne_nil_iff {α : Type} (p : α → Bool) (l : List α) :
    l.filter p ≠ [] ↔ ∃ x ∈ l, p x = true := by
  rw [ne_eq, List.filter_eq_nil_iff]
  push_neg
  simp

theorem primarySelect_eq_none_iff (l : List TarInfo) :
    primarySelect l = none ↔ l = [] := by
  constructor
  · intro h
    unfold primarySelect at h
    cases hfb : findByBasename l primaryNames with
    | some c => rw [hfb] at h; exact absurd h (by simp)
    | none => rw [hfb] at h; exact (maxBySize_eq_none_iff l).mp h
  · intro h
    subst h
    rfl

theorem findByBasename_mem {l : List TarInfo} {bs : List String} {m : TarInfo}
    (h : findByBasename l bs = some m) : m ∈ l := by
  have := maxBySize_mem h
  exact (List.mem_filter.mp this).1

theorem primarySelect_mem {l : List TarInfo} {p : TarInfo}
    (h : primarySelect l = some p) : p ∈ l := by
  unfold primarySelect at h
  cases hfb : findByBasename l primaryNames with
  | some c =>
    rw [hfb] at h
    exact (Option.some.inj h) ▸ findByBasename_mem hfb
  | none =>
    rw [hfb] at h
    exact maxBySize_mem h

theorem secondarySelect_mem {l : List TarInfo} {p e : TarInfo}
    (h : secondarySelect l p = some e) : e ∈ l := by
  unfold secondarySelect at h
  cases hfb : findByBasename l secondaryNames with
  | some e0 =>
    rw [hfb] at h
    exact (Option.some.inj h) ▸ findByBasename_mem hfb
  | none =>
    rw [hfb] at h
    exact mem_sortBySizeDesc.mp (List.mem_of_find?_eq_some h)

/-- A `find?` over the stable size-descending order returns a
size-maximal element among those satisfying the predicate. -/
theorem sortedFind_max {l : List TarInfo} {p : TarInfo → Bool} {s : TarInfo}
    (h : (sortBySizeDesc l).find? p = some s) :
    p s = true ∧ s ∈ l ∧ ∀ x ∈ l, p x = true → x.size ≤ s.size := by
  obtain ⟨hps, as, bs, heq, hfail⟩ := List.find?_eq_some.mp h
  refine ⟨hps, mem_sortBySizeDesc.mp (List.mem_of_find?_eq_some h), ?_⟩
  intro x hx hpx
  have hxs : x ∈ sortBySizeDesc l := mem_sortBySizeDesc.mpr hx
  rw [heq] at hxs
  rcases List.mem_append.mp hxs with hxs | hxs
  · have := hfail x hxs
    simp [hpx] at this
  · rcases List.mem_cons.mp hxs with hxs | hxs
    · exact hxs ▸ le_refl _
    · have hsorted := sortBySizeDesc_sorted l
      rw [heq] at hsorted
      have := (List.pairwise_append.mp hsorted).2.1
      exact (List.pairwise_cons.mp this).1 x hxs

theorem sortedFind_eq_none_iff {l : List TarInfo} {p : TarInfo → Bool} :
    (sortBySizeDesc l).find? p = none ↔ ∀ x ∈ l, p x = false := by
  rw [List.find?_eq_none]
  constructor
  · intro h x hx
    have := h x (mem_sortBySizeDesc.mpr hx)
    simpa using this
  · intro h x hx
    simp [h x (mem_sortBySizeDesc.mp hx)]

theorem find?_first {α : Type} {p : α → Bool} {l1 l2 : List α} {a : α}
    (h1 : ∀ x ∈ l1, p x = false) (h2 : p a = true) :
    (l1 ++ a :: l2).find? p = some a := by
  refine List.find?_eq_some.mpr ⟨h2, l1, l2, rfl, ?_⟩
  intro x hx
  simp [h1 x hx]

/-! ### Lemmas about the python string helpers and the digest parser -/

theorem dropWhile_append_all {α : Type} {p : α → Bool} {l1 l2 : List α}
    (h : ∀ x ∈ l1, p x = true) : (l1 ++ l2).dropWhile p = l2.dropWhile p := by
  rw [List.dropWhile_append, if_pos]
  rw [List.isEmpty_iff, List.dropWhile_eq_nil_iff]
  exact h

theorem dropWhile_append_keep {α : Type} {p : α → Bool} {l1 l2 : List α}
    (h : l1.dropWhile p = l1) (hne : l1 ≠ []) :
    (l1 ++ l2).dropWhile p = l1 ++ l2 := by
  rw [List.dropWhile_append, h,
    if_neg (by rw [List.isEmpty_iff]; exact hne)]

theorem pyStrip_eq_self {s : String}
    (hlead : s.data.dropWhile pyIsSpace = s.data)
    (htrail : s.data.reverse.dropWhile pyIsSpace = s.data.reverse) :
    pyStrip s = s := by
  apply String.ext
  show ((s.data.dropWhile pyIsSpace).reverse.dropWhile pyIsSpace).reverse = s.data
  rw [hlead, htrail, List.reverse_reverse]

theorem pyStrip_sha256_append_space {ws : String}
    (h : ∀ c ∈ ws.data, pyIsSpace c = true) :
    pyStrip ("sha256:" ++ ws) = "sha256:" := by
  apply String.ext
  show ((("sha256:" ++ ws).data.dropWhile pyIsSpace).reverse.dropWhile
    pyIsSpace).reverse = "sha256:".data
  rw [show ("sha256:" ++ ws).data = "sha256:".data ++ ws.data from rfl]
  rw [dropWhile_append_keep rfl (by simp)]
  rw [List.reverse_append]
  rw [dropWhile_append_all (fun c hc => h c (List.mem_reverse.mp hc))]
  rw [show ("sha256:".data.reverse.dropWhile pyIsSpace) = "sha256:".data.reverse from rfl]
  rw [List.reverse_reverse]

theorem pyStrip_wrapped {ws1 ws2 hex : String}
    (h1 : ∀ c ∈ ws1.data, pyIsSpace c = true)
    (h2 : ∀ c ∈ ws2.data, pyIsSpace c = true)
    (htrail : hex.data.reverse.dropWhile pyIsSpace = hex.data.reverse)
    (hne : hex.data ≠ []) :
    pyStrip (ws1 ++ ("sha256:" ++ hex) ++ ws2) = "sha256:" ++ hex := by
  apply String.ext
  show (((ws1 ++ ("sha256:" ++ hex) ++ ws2).data.dropWhile pyIsSpace).reverse.dropWhile
    pyIsSpace).reverse = ("sha256:" ++ hex).data
  have hdata : (ws1 ++ ("sha256:" ++ hex) ++ ws2).data
      = ws1.data ++ (("sha256:".data ++ hex.data) ++ ws2.data) := by
    rw [String.data_append, String.data_append, String.data_append, List.append_assoc]
  rw [hdata]
  rw [dropWhile_append_all h1]
  rw [dropWhile_append_keep (dropWhile_append_keep rfl (by simp)) (by simp)]
  rw [List.reverse_append, List.reverse_append]
  rw [dropWhile_append_all (fun c hc => h2 c (List.mem_reverse.mp hc))]
  rw [dropWhile_append_keep htrail (by simpa using hne)]
  rw [← List.reverse_append, List.reverse_reverse, String.data_append]

theorem pyStartsWith_sha256_append (rest : String) :
    pyStartsWith "sha256:" ("sha256:" ++ rest) = true := by
  unfold pyStartsWith
  rw [String.data_append]
  exact List.isPrefixOf_iff_prefix.mpr (List.prefix_append _ _)

/-- Core behavior of `_parse_sha256_digest` on inputs whose stripped form
carries the `sha256:` prefix: the result is the stripped remainder, or
`None` when that remainder is empty. -/
theorem parse_of_strip_eq (s rest : String) (h : pyStrip s = "sha256:" ++ rest) :
    parseSha256Digest (some s) =
      if (pyStrip rest).data = [] then none else some (pyStrip rest) := by
  have hsne : ¬ s.data = [] := by
    intro h0
    have hd : (pyStrip s).data = [] := by
      show ((s.data.dropWhile pyIsSpace).reverse.dropWhile pyIsSpace).reverse = []
      rw [h0]
      rfl
    rw [h, String.data_append] at hd
    exact absurd hd (by simp)
  simp only [parseSha256Digest]
  rw [if_neg hsne, h]
  rw [if_pos (pyStartsWith_sha256_append rest)]
  rw [show afterFirstColon ("sha256:" ++ rest) = rest from rfl]

theorem parse_of_no_sha256 (s : String)
    (h : pyStartsWith "sha256:" (pyStrip s) = false) :
    parseSha256Digest (some s) = none := by
  simp only [parseSha256Digest]
  by_cases h0 : s.data = []
  · rw [if_pos h0]
  · rw [if_neg h0, if_neg (by simp [h])]

theorem parse_some_ne_nil {d : Option String} {e : String}
    (h : parseSha256Digest d = some e) : e.data ≠ [] := by
  cases d with
  | none => exact absurd h (by simp [parseSha256Digest])
  | some s =>
    simp only [parseSha256Digest] at h
    split_ifs at h with h1 h2 h3
    rw [Option.some.inj h] at h3
    exact h3

/-! ### Claim C8: digest extraction -/

/-- C8, counterexample: the claim as stated — every `sha256:`-prefixed
string yields the portion after the prefix unchanged, everything else
yields absence — is false: the input `"sha256:"` is `sha256:`-prefixed,
yet `_parse_sha256_digest` returns `None` rather than the empty
remainder (and surrounding whitespace also breaks the stated form). -/
theorem claim_C8_digest_counterexample : ¬ ClaimC8Statement := by
  intro h
  have h1 := h.1 "sha256:" (by decide)
  rw [show parseSha256Digest (some "sha256:") = none from rfl] at h1
  exact Option.noConfusion h1

/-- C8, amended: for every digest string whose *stripped* form is
`sha256:` followed by a remainder, extraction returns the stripped
remainder when it is non-empty and absence when it is empty; for every
input not carrying the `sha256:` prefix after stripping, and for absent
input, it returns absence. -/
theorem claim_C8_digest_parse_amended :
    (∀ s rest : String, pyStrip s = "sha256:" ++ rest →
      parseSha256Digest (some s) =
        if (pyStrip rest).data = [] then none else some (pyStrip rest))
    ∧ (∀ s : String, pyStartsWith "sha256:" (pyStrip s) = false →
      parseSha256Digest (some s) = none)
    ∧ parseSha256Digest none = none :=
  ⟨parse_of_strip_eq, parse_of_no_sha256, rfl⟩

/-- C8, witness: the amended theorem applied at `"sha256: 1a2b "`. -/
theorem claim_C8_digest_parse_amended_witness :
    parseSha256Digest (some "sha256: 1a2b ") = some "1a2b" := by
  have h := claim_C8_digest_parse_amended.1 "sha256: 1a2b " " 1a2b" (by decide)
  rw [h]
  decide

/-! ### Claim C10: whitespace handling in digest extraction -/

/-- C10: digest extraction strips surrounding whitespace: `sha256:`
followed only by whitespace (or nothing) yields absence rather than an
empty hex string, and whitespace around a well-formed `sha256:hex` input
does not prevent the hex portion from being returned. -/
theorem claim_C10_digest_whitespace :
    (∀ ws : String, (∀ c ∈ ws.data, pyIsSpace c = true) →
      parseSha256Digest (some ("sha256:" ++ ws)) = none)
    ∧ (∀ ws1 ws2 hex : String,
      (∀ c ∈ ws1.data, pyIsSpace c = true) →
      (∀ c ∈ ws2.data, pyIsSpace c = true) →
      hex.data ≠ [] →
      hex.data.dropWhile pyIsSpace = hex.data →
      hex.data.reverse.dropWhile pyIsSpace = hex.data.reverse →
      parseSha256Digest (some (ws1 ++ ("sha256:" ++ hex) ++ ws2)) = some hex) := by
  constructor
  · intro ws hws
    have hstrip : pyStrip ("sha256:" ++ ws) = "sha256:" ++ "" := by
      rw [pyStrip_sha256_append_space hws]
      exact String.ext (by simp)
    rw [parse_of_strip_eq _ "" hstrip]
    rfl
  · intro ws1 ws2 hex h1 h2 hne hlead htrail
    rw [parse_of_strip_eq _ hex (pyStrip_wrapped h1 h2 htrail hne)]
    rw [pyStrip_eq_self hlead htrail]
    rw [if_neg hne]

/-- C10, witness: whitespace-wrapped digest parsed at a concrete input. -/
theorem claim_C10_digest_whitespace_witness :
    parseSha256Digest (some (" " ++ ("sha256:" ++ "abc") ++ " ")) = some "abc" :=
  claim_C10_digest_whitespace.2 " " " " "abc"
    (by decide) (by decide) (by decide) (by decide) (by decide)

/-! ### Claim C5: digest verification before extraction -/

/-- C5: with an expected digest present (as produced by
`_parse_sha256_digest`), a case-insensitive mismatch with the computed
digest fails with `IntegrityError` naming both values, for every archive
— extraction is never consulted; with no expected digest, the pass is
exactly dual-binary extraction, regardless of the computed hash. -/
theorem claim_C5_digest_check (rawDigest : Option String) (gotSha : String)
    (archive : List TarInfo) :
    (∀ e, parseSha256Digest rawDigest = some e → pyLower gotSha ≠ pyLower e →
      codexDownloadPass rawDigest gotSha archive =
        .error (.integrityError gotSha e))
    ∧ (parseSha256Digest rawDigest = none →
      codexDownloadPass rawDigest gotSha archive = extractCodexTermuxSelect archive) := by
  constructor
  · intro e hparse hmm
    unfold codexDownloadPass
    rw [hparse]
    simp only [verifyAndExtractCodex]
    rw [if_pos ⟨parse_some_ne_nil hparse, hmm⟩]
  · intro hparse
    unfold codexDownloadPass
    rw [hparse]
    rfl

/-- C5, witness: mismatching digest at a concrete input. -/
theorem claim_C5_digest_check_witness :
    codexDownloadPass (some "sha256:aabb") "ccdd" [] =
      .error (.integrityError "ccdd" "aabb") :=
  (claim_C5_digest_check (some "sha256:aabb") "ccdd" []).1 "aabb" rfl (by decide)

/-! ### Claim C6: fallback asset resolution -/

/-- C6: when the requested tag is the freshness marker and the returned
release has no `.tgz` asset, the resolver walks the recent-releases list
in order, skips drafts and prereleases, adopts the first release holding
a suffix match (even past more recent draft/prerelease releases), and
returns that release's first suffix-matching asset in API order; when no
release in the list has a usable match, it fails with `AssetNotFound`
reporting the asset names of the originally returned release. -/
theorem claim_C6_tgz_fallback (tag : String) (rel : ApiRelease) (rels : List ApiRelease)
    (htag : tag = "latest") (hempty : tgzOf rel.assets = []) :
    (∀ l1 r l2 pre a post,
      rels = l1 ++ r :: l2 →
      (∀ r2 ∈ l1, r2.draft = true ∨ r2.prerelease = true ∨ tgzOf r2.assets = []) →
      r.draft = false → r.prerelease = false →
      r.assets = pre ++ a :: post →
      (∀ x ∈ pre, pyEndsWith ".tgz" x.name = false) →
      pyEndsWith ".tgz" a.name = true →
      resolveTgzAsset tag rel rels =
        .ok { name := a.name, url := a.url, sha256 := parseSha256Digest a.digest })
    ∧ ((∀ r2 ∈ rels, tgzOf r2.assets = []) →
      resolveTgzAsset tag rel rels =
        .error (.assetNotFound (rel.assets.map (·.name)))) := by
  subst htag
  constructor
  · intro l1 r l2 pre a post hrels hskip hdraft hprerel hassets hprefail hmatch
    have htgzr : tgzOf r.assets = a :: tgzOf post := by
      rw [hassets]
      unfold tgzOf
      rw [List.filter_append, List.filter_cons]
      rw [List.filter_eq_nil_iff.mpr (by intro x hx; simp [hprefail x hx])]
      simp [hmatch]
    have hfail : ∀ r2 ∈ l1,
        (!r2.draft && !r2.prerelease && !(tgzOf r2.assets).isEmpty) = false := by
      intro r2 hr2
      rcases hskip r2 hr2 with h | h | h
      · simp [h]
      · simp [h]
      · simp [h]
    have hok : (!r.draft && !r.prerelease && !(tgzOf r.assets).isEmpty) = true := by
      simp [hdraft, hprerel, htgzr]
    simp only [resolveTgzAsset]
    rw [hempty, hrels]
    rw [if_pos (by decide)]
    rw [find?_first hfail hok]
    simp [htgzr]
  · intro hall
    have hnone : rels.find?
        (fun r => !r.draft && !r.prerelease && !(tgzOf r.assets).isEmpty) = none := by
      rw [List.find?_eq_none]
      intro x hx
      simp [hall x hx]
    simp only [resolveTgzAsset]
    rw [hempty, hnone]
    rw [if_pos (by decide)]

/-- C6, witness: the fallback theorem applied at a concrete release
list where a draft release precedes the usable one. -/
theorem claim_C6_tgz_fallback_witness :
    resolveTgzAsset "latest"
      { tagName := "v3", draft := false, prerelease := false,
        assets := [{ name := "codex.zip", url := "uz", digest := none }] }
      [{ tagName := "v2", draft := true, prerelease := false,
         assets := [{ name := "codex.tgz", url := "ud", digest := none }] },
       { tagName := "v1", draft := false, prerelease := false,
         assets := [{ name := "codex.zip", url := "uz", digest := none },
                    { name := "codex.tgz", url := "ut", digest := some "sha256:ff" }] }] =
      .ok { name := "codex.tgz", url := "ut", sha256 := some "ff" } := by
  have h := (claim_C6_tgz_fallback "latest"
    { tagName := "v3", draft := false, prerelease := false,
      assets := [{ name := "codex.zip", url := "uz", digest := none }] }
    [{ tagName := "v2", draft := true, prerelease := false,
       assets := [{ name := "codex.tgz", url := "ud", digest := none }] },
     { tagName := "v1", draft := false, prerelease := false,
       assets := [{ name := "codex.zip", url := "uz", digest := none },
                  { name := "codex.tgz", url := "ut", digest := some "sha256:ff" }] }]
    rfl (by decide)).1
    [{ tagName := "v2", draft := true, prerelease := false,
       assets := [{ name := "codex.tgz", url := "ud", digest := none }] }]
    { tagName := "v1", draft := false, prerelease := false,
      assets := [{ name := "codex.zip", url := "uz", digest := none },
                 { name := "codex.tgz", url := "ut", digest := some "sha256:ff" }] }
    []
    [{ name := "codex.zip", url := "uz", digest := none }]
    { name := "codex.tgz", url := "ut", digest := some "sha256:ff" }
    [] rfl (by decide) rfl rfl rfl (by decide) (by decide)
  rw [h]
  rfl

/-! ### Claim C7: single-binary (ripgrep) extraction -/

theorem extractRipgrepRg_eq_ok_iff {ms : List TarInfo} {m : TarInfo} :
    extractRipgrepRg ms = .ok m ↔ (tarMembers ms).find? rgCond = some m := by
  unfold extractRipgrepRg
  cases hf : (tarMembers ms).find? rgCond <;> simp

/-- C7: single-binary extraction returns the first regular-file member
whose basename is `rg`, whose size strictly exceeds `100000`, and whose
first four bytes are the ELF magic; when no member satisfies all three
conditions at once (a name match alone never suffices) it fails with
`NoExecutableFound`. -/
theorem claim_C7_rg_selection (ms : List TarInfo) :
    (∀ m, extractRipgrepRg ms = .ok m →
      (m.isFile = true ∧ pyBasename m.name = "rg" ∧ 100000 < m.size ∧
        isElfHeader (m.data.take 4) = true) ∧
      ∃ l1 l2, tarMembers ms = l1 ++ m :: l2 ∧ ∀ x ∈ l1, rgCond x = false)
    ∧ ((∀ m ∈ ms, ¬(m.isFile = true ∧ pyBasename m.name = "rg" ∧ 100000 < m.size ∧
        isElfHeader (m.data.take 4) = true)) →
      extractRipgrepRg ms = .error .noExecutableFound) := by
  constructor
  · intro m hok
    have hf := extractRipgrepRg_eq_ok_iff.mp hok
    have hmem : m ∈ tarMembers ms := List.mem_of_find?_eq_some hf
    have hfile : m.isFile = true := by simpa using (List.mem_filter.mp hmem).2
    have hcond : rgCond m = true := List.find?_some hf
    simp only [rgCond, Bool.and_eq_true, decide_eq_true_eq] at hcond
    obtain ⟨hps, as, bs, heq, hfails⟩ := List.find?_eq_some.mp hf
    refine ⟨⟨hfile, hcond.1.1, hcond.1.2, hcond.2⟩, as, bs, heq, ?_⟩
    intro x hx
    have := hfails x hx
    simpa using this
  · intro hall
    have hnone : (tarMembers ms).find? rgCond = none := by
      rw [List.find?_eq_none]
      intro x hx hcond
      have hmem : x ∈ ms := (List.mem_filter.mp hx).1
      have hfile : x.isFile = true := by simpa using (List.mem_filter.mp hx).2
      apply hall x hmem
      simp only [rgCond, Bool.and_eq_true, decide_eq_true_eq] at hcond
      exact ⟨hfile, hcond.1.1, hcond.1.2, hcond.2⟩
    unfold extractRipgrepRg
    rw [hnone]

/-- C7, witness: a small same-named member (name match, size and magic
fail) is rejected with `NoExecutableFound`. -/
theorem claim_C7_rg_selection_witness :
    extractRipgrepRg
      [{ name := "rg", size := 50, isFile := true, data := [0x7f, 0x45, 0x4c, 0x46] },
       { name := "sub/rg", size := 500000, isFile := true, data := [0x23, 0x21] }] =
      .error .noExecutableFound :=
  (claim_C7_rg_selection
    [{ name := "rg", size := 50, isFile := true, data := [0x7f, 0x45, 0x4c, 0x46] },
     { name := "sub/rg", size := 500000, isFile := true, data := [0x23, 0x21] }]).2
    (by decide)

/-! ### Characterizations of the dual-binary extraction -/

theorem extract_ok_iff {ms : List TarInfo} {c e : TarInfo} :
    extractCodexTermuxSelect ms = .ok (c, e) ↔
      (primarySelect (elfCandidates ms) = some c ∧
       secondarySelect (elfCandidates ms) c = some e ∧ ¬ e.name = c.name) := by
  unfold extractCodexTermuxSelect
  constructor
  · intro h
    split at h
    · exact absurd h (by simp)
    · rename_i p hp
      split at h
      · exact absurd h (by simp)
      · rename_i s hs
        split_ifs at h with hn
        have h1 : p = c := congrArg Prod.fst (Except.ok.inj h)
        have h2 : s = e := congrArg Prod.snd (Except.ok.inj h)
        subst h1
        subst h2
        exact ⟨hp, hs, hn⟩
  · rintro ⟨hp, hs, hn⟩
    rw [hp]
    simp [hs, hn]

theorem extract_ambiguous_iff {ms : List TarInfo} :
    extractCodexTermuxSelect ms = .error .ambiguousArchive ↔
      ∃ p, primarySelect (elfCandidates ms) = some p ∧
        ∀ e, secondarySelect (elfCandidates ms) p = some e → e.name = p.name := by
  unfold extractCodexTermuxSelect
  constructor
  · intro h
    split at h
    · exact absurd h (by simp)
    · rename_i p hp
      refine ⟨p, hp, ?_⟩
      split at h
      · rename_i hs
        intro e he
        rw [hs] at he
        exact Option.noConfusion he
      · rename_i s hs
        split_ifs at h with hn
        intro e he
        rw [hs] at he
        rw [← Option.some.inj he]
        exact hn
  · rintro ⟨p, hp, hall⟩
    rw [hp]
    cases hs : secondarySelect (elfCandidates ms) p with
    | none => simp [hs]
    | some s => simp [hs, hall s hs]

theorem extract_noexec_iff {ms : List TarInfo} :
    extractCodexTermuxSelect ms = .error .noExecutableFound ↔ elfCandidates ms = [] := by
  unfold extractCodexTermuxSelect
  constructor
  · intro h
    split at h
    · rename_i hp
      exact (primarySelect_eq_none_iff _).mp hp
    · rename_i p hp
      split at h
      · exact absurd h (by simp)
      · rename_i s hs
        split_ifs at h with hn
        exact absurd h (by simp)
  · intro h
    rw [(primarySelect_eq_none_iff _).mpr h]

theorem secondarySelect_of_name_match {l : List TarInfo} {p s : TarInfo}
    (h : maxBySize (l.filter secNamed) = some s) :
    secondarySelect l p = some s := by
  unfold secondarySelect
  rw [show findByBasename l secondaryNames = some s from h]

theorem secondarySelect_fallback {l : List TarInfo} {p : TarInfo}
    (hsec : l.filter secNamed = []) :
    secondarySelect l p =
      (sortBySizeDesc l).find? (fun m => m.name ≠ p.name) := by
  unfold secondarySelect
  rw [show findByBasename l secondaryNames = none from (maxBySize_eq_none_iff _).mpr hsec]

theorem secondarySelect_name_eq_of_allsame {l : List TarInfo} {nm : String} {p : TarInfo}
    (hall : ∀ x ∈ l, x.name = nm) (hp : p ∈ l) :
    ∀ e, secondarySelect l p = some e → e.name = p.name := by
  intro e he
  rw [hall e (secondarySelect_mem he), hall p hp]

theorem extract_allsame (nm : String) {ms : List TarInfo}
    (hne : elfCandidates ms ≠ []) (hall : ∀ x ∈ elfCandidates ms, x.name = nm) :
    extractCodexTermuxSelect ms = .error .ambiguousArchive := by
  apply extract_ambiguous_iff.mpr
  cases hp : primarySelect (elfCandidates ms) with
  | none => exact absurd ((primarySelect_eq_none_iff _).mp hp) hne
  | some p => exact ⟨p, rfl, secondarySelect_name_eq_of_allsame hall (primarySelect_mem hp)⟩

theorem secondarySelect_fallback_some {l : List TarInfo} {p : TarInfo}
    (hsec : l.filter secNamed = [])
    (hne : l.filter (fun m => m.name ≠ p.name) ≠ []) :
    ∃ s, secondarySelect l p = some s ∧ s ∈ l ∧ s.name ≠ p.name ∧
      ∀ x ∈ l, x.name ≠ p.name → x.size ≤ s.size := by
  obtain ⟨x, hx, hpx⟩ := (filter_ne_nil_iff _ _).mp hne
  cases hf : (sortBySizeDesc l).find? (fun m => m.name ≠ p.name) with
  | none =>
    have h0 := sortedFind_eq_none_iff.mp hf x hx
    simp [h0] at hpx
  | some s =>
    obtain ⟨hps, hmem, hmax⟩ := sortedFind_max hf
    refine ⟨s, ?_, hmem, by simpa using hps, ?_⟩
    · rw [secondarySelect_fallback hsec, hf]
    · intro z hz hzn
      exact hmax z hz (by simpa using hzn)

theorem secondarySelect_fallback_none {l : List TarInfo} {p : TarInfo}
    (hsec : l.filter secNamed = [])
    (hall : l.filter (fun m => m.name ≠ p.name) = []) :
    secondarySelect l p = none := by
  rw [secondarySelect_fallback hsec]
  rw [sortedFind_eq_none_iff]
  intro x hx
  have h0 := List.filter_eq_nil_iff.mp hall x hx
  simpa using h0

/-! ### Claim C2: primary selection -/

/-- C2: on a non-empty candidate list, when at least one candidate's
basename is in the primary-name set, the primary is the first
size-maximal such candidate (largest by size, encounter order on ties),
regardless of its rank among all candidates; with no name match, the
primary is the first size-maximal candidate overall. -/
theorem claim_C2_primary_selection (ms : List TarInfo)
    (h : elfCandidates ms ≠ []) :
    ((elfCandidates ms).filter primNamed ≠ [] →
      ∃ p, primarySelect (elfCandidates ms) = some p ∧
        FirstMaxBySize ((elfCandidates ms).filter primNamed) p)
    ∧ ((elfCandidates ms).filter primNamed = [] →
      ∃ p, primarySelect (elfCandidates ms) = some p ∧
        FirstMaxBySize (elfCandidates ms) p) := by
  constructor
  · intro hne
    cases hmx : maxBySize ((elfCandidates ms).filter primNamed) with
    | none => exact absurd ((maxBySize_eq_none_iff _).mp hmx) hne
    | some p =>
      refine ⟨p, ?_, maxBySize_firstMax hmx⟩
      unfold primarySelect
      rw [show findByBasename (elfCandidates ms) primaryNames = some p from hmx]
  · intro hnil
    cases hmx : maxBySize (elfCandidates ms) with
    | none => exact absurd ((maxBySize_eq_none_iff _).mp hmx) h
    | some p =>
      refine ⟨p, ?_, maxBySize_firstMax hmx⟩
      unfold primarySelect
      rw [show findByBasename (elfCandidates ms) primaryNames = none from
        (maxBySize_eq_none_iff _).mpr hnil]
      exact hmx

/-- C2, witness: a small member named `codex` wins the primary slot over
a larger unnamed member. -/
theorem claim_C2_primary_selection_witness :
    ∃ p, primarySelect (elfCandidates [wOther, wCodex]) = some p ∧
      FirstMaxBySize ((elfCandidates [wOther, wCodex]).filter primNamed) p :=
  (claim_C2_primary_selection [wOther, wCodex] (by decide)).1 (by decide)

/-! ### Claim C1: secondary selection -/

/-- C1, counterexample: the claim as stated — the secondary name match
is searched among the remaining candidates *excluding the chosen
primary* — is false: in an archive whose largest qualifying member is
named `codex-exec` (and no member is named `codex`), that member becomes
the primary, and the script's secondary name search still returns it
instead of falling back to the largest remaining member. -/
theorem claim_C1_counterexample : ¬ ClaimC1Statement := by
  intro h
  have h2 := (h [wSecBig, wOther] wSecBig rfl).2
  have h3 := h2 rfl wOther ⟨[], [], by decide, by simp, by decide⟩
  exact absurd h3 (by decide)

/-- C1, amended: the secondary name-preference is evaluated over *all*
qualifying candidates (the chosen primary included): a secondary-named
candidate of maximal size is preferred; when no candidate carries a
secondary name, the largest candidate whose internal name differs from
the primary's is chosen (`none` if all names coincide); and whenever the
preferred secondary carries the primary's internal name, extraction
fails with `AmbiguousArchive` instead of falling back. -/
theorem claim_C1_secondary_amended (ms : List TarInfo) (p : TarInfo)
    (hp : primarySelect (elfCandidates ms) = some p) :
    ((elfCandidates ms).filter secNamed ≠ [] →
      ∃ s, secondarySelect (elfCandidates ms) p = some s ∧
        s ∈ (elfCandidates ms).filter secNamed ∧
        ∀ x ∈ (elfCandidates ms).filter secNamed, x.size ≤ s.size)
    ∧ ((elfCandidates ms).filter secNamed = [] →
      (((elfCandidates ms).filter (fun m => m.name ≠ p.name)) ≠ [] →
        ∃ s, secondarySelect (elfCandidates ms) p = some s ∧
          s ∈ elfCandidates ms ∧ s.name ≠ p.name ∧
          ∀ x ∈ elfCandidates ms, x.name ≠ p.name → x.size ≤ s.size)
      ∧ (((elfCandidates ms).filter (fun m => m.name ≠ p.name)) = [] →
        secondarySelect (elfCandidates ms) p = none))
    ∧ (∀ s, secondarySelect (elfCandidates ms) p = some s → s.name = p.name →
      extractCodexTermuxSelect ms = .error .ambiguousArchive) := by
  refine ⟨?_, ?_, ?_⟩
  · intro hne
    cases hmx : maxBySize ((elfCandidates ms).filter secNamed) with
    | none => exact absurd ((maxBySize_eq_none_iff _).mp hmx) hne
    | some s =>
      exact ⟨s, secondarySelect_of_name_match hmx, maxBySize_mem hmx, maxBySize_le hmx⟩
  · intro hsec
    exact ⟨secondarySelect_fallback_some hsec, secondarySelect_fallback_none hsec⟩
  · intro s hs hn
    apply extract_ambiguous_iff.mpr
    refine ⟨p, hp, ?_⟩
    intro e he
    rw [hs] at he
    rw [← Option.some.inj he]
    exact hn

/-- C1, witness: the amended theorem at an archive holding `codex`,
`codex-exec` and a text file. -/
theorem claim_C1_secondary_amended_witness :
    ∃ s, secondarySelect (elfCandidates [wCodex, wExec, wText]) wCodex = some s ∧
      s ∈ (elfCandidates [wCodex, wExec, wText]).filter secNamed ∧
      ∀ x ∈ (elfCandidates [wCodex, wExec, wText]).filter secNamed, x.size ≤ s.size :=
  (claim_C1_secondary_amended [wCodex, wExec, wText] wCodex rfl).1 (by decide)

/-! ### Claim C3: ambiguity condition -/

/-- C3, counterexample: the claim as stated — ambiguity arises exactly
on fewer than two qualifying executables or on primary and secondary
resolving to the same member — is false: an archive with two distinct
qualifying members sharing one internal name raises the ambiguity error
although it has two qualifying executables and no secondary resolves. -/
theorem claim_C3_counterexample : ¬ ClaimC3Statement := by
  intro h
  have h1 := (h [wApp1, wApp2]).1.mp rfl
  obtain ⟨hne, hor⟩ := h1
  rcases hor with hlen | ⟨p, hp, hs⟩
  · exact absurd hlen (by decide)
  · have hp2 : p = wApp1 := (Option.some.inj
      ((show primarySelect (elfCandidates [wApp1, wApp2]) = some wApp1 from rfl).symm.trans
        hp)).symm
    subst hp2
    exact Option.noConfusion
      ((show secondarySelect (elfCandidates [wApp1, wApp2]) wApp1 = none from rfl).symm.trans hs)

/-- C3, amended: extraction fails with `AmbiguousArchive` exactly when
the candidate list is non-empty and the secondary selection can yield
nothing but the primary's internal name — one qualifying executable,
all candidates sharing the primary's name, or the secondary name match
resolving to the primary, are the instances; on success the two
extracted members never share an internal name (so are never the same
member). -/
theorem claim_C3_ambiguity_amended (ms : List TarInfo) :
    (extractCodexTermuxSelect ms = .error .ambiguousArchive ↔
      (elfCandidates ms ≠ [] ∧
        ∃ p, primarySelect (elfCandidates ms) = some p ∧
          ∀ e, secondarySelect (elfCandidates ms) p = some e → e.name = p.name))
    ∧ ∀ c e, extractCodexTermuxSelect ms = .ok (c, e) → c.name ≠ e.name ∧ c ≠ e := by
  constructor
  · rw [extract_ambiguous_iff]
    constructor
    · rintro ⟨p, hp, hall⟩
      refine ⟨?_, p, hp, hall⟩
      intro h0
      rw [(primarySelect_eq_none_iff _).mpr h0] at hp
      exact Option.noConfusion hp
    · rintro ⟨hne, p, hp, hall⟩
      exact ⟨p, hp, hall⟩
  · intro c e hok
    obtain ⟨hp, hs, hn⟩ := extract_ok_iff.mp hok
    refine ⟨fun h0 => hn h0.symm, fun h0 => hn ?_⟩
    rw [h0]

/-- C3, witness: the amended theorem's success half at a concrete
archive. -/
theorem claim_C3_ambiguity_amended_witness :
    wCodex.name ≠ wExec.name ∧ wCodex ≠ wExec :=
  (claim_C3_ambiguity_amended [wCodex, wExec, wText]).2 wCodex wExec rfl

/-! ### Claim C4: extraction filters -/

/-- C4: every member the dual-binary extraction writes is a regular
file of size at least 10 MiB whose first four bytes are the ELF magic;
when no member passes the filters the operation fails with
`NoExecutableFound` (so a member failing a filter is never written). -/
theorem claim_C4_extraction_filters (ms : List TarInfo) :
    (∀ m ∈ extractedMembers ms, m.isFile = true ∧ minSizeCodex ≤ m.size ∧
      isElfHeader (m.data.take 4) = true)
    ∧ (elfCandidates ms = [] →
      extractCodexTermuxSelect ms = .error .noExecutableFound) := by
  have hprop : ∀ z ∈ elfCandidates ms, z.isFile = true ∧ minSizeCodex ≤ z.size ∧
      isElfHeader (z.data.take 4) = true := by
    intro z hz
    unfold elfCandidates at hz
    have h1 := List.mem_filter.mp hz
    have h2 := List.mem_filter.mp h1.1
    have h3 := h1.2
    simp only [Bool.and_eq_true, decide_eq_true_eq] at h3
    exact ⟨by simpa using h2.2, h3.1, h3.2⟩
  constructor
  · intro m hm
    cases hx : extractCodexTermuxSelect ms with
    | error err =>
      have hnil : extractedMembers ms = [] := by
        unfold extractedMembers
        rw [hx]
      rw [hnil] at hm
      exact absurd hm (by simp)
    | ok ce =>
      obtain ⟨c, e⟩ := ce
      have hcs := extract_ok_iff.mp hx
      have hpair : extractedMembers ms = [c, e] := by
        unfold extractedMembers
        rw [hx]
      rw [hpair] at hm
      rcases List.mem_cons.mp hm with hm | hm
      · subst hm
        exact hprop m (primarySelect_mem hcs.1)
      · rcases List.mem_cons.mp hm with hm | hm
        · subst hm
          exact hprop m (secondarySelect_mem hcs.2.1)
        · exact absurd hm (by simp)
  · intro h
    exact extract_noexec_iff.mpr h

/-- C4, witness: the written primary at a concrete archive passes the
filters. -/
theorem claim_C4_extraction_filters_witness :
    wCodex.isFile = true ∧ minSizeCodex ≤ wCodex.size ∧
      isElfHeader (wCodex.data.take 4) = true :=
  (claim_C4_extraction_filters [wCodex, wExec, wText]).1 wCodex (by decide)

/-! ### Claim C9: distinctness is by internal name -/

/-- C9: the distinctness of primary and secondary is judged by equality
of full internal names: an archive whose only two qualifying members are
distinct files sharing one internal name fails with the ambiguity error
even though two qualifying executables exist. -/
theorem claim_C9_name_distinctness (ms : List TarInfo) (m1 m2 : TarInfo)
    (h : elfCandidates ms = [m1, m2]) (hn : m1.name = m2.name) :
    extractCodexTermuxSelect ms = .error .ambiguousArchive := by
  apply extract_allsame m1.name
  · rw [h]
    simp
  · intro x hx
    rw [h] at hx
    rcases List.mem_cons.mp hx with hx | hx
    · rw [hx]
    · rcases List.mem_cons.mp hx with hx | hx
      · rw [hx]
        exact hn.symm
      · exact absurd hx (by simp)

/-- C9, witness: two distinct members both named `app`. -/
theorem claim_C9_name_distinctness_witness :
    extractCodexTermuxSelect [wApp1, wApp2] = .error .ambiguousArchive :=
  claim_C9_name_distinctness [wApp1, wApp2] wApp1 wApp2 (by decide) rfl

end Codexm
